import Mathlib

/-
Verification of the Syntax-Tree Cache & Symbol Resolution Engine of the
lineCompletion backend (src/backend/main.py and src/backend/rag.py).

The engine works on tree-sitter concrete syntax trees.  We embed the trees
shallowly: a `Node` carries the node's type string (`kind`, source:
`node.type`), the field label it occupies in its parent (source:
`child_by_field_name` lookups), its span as 0-based (row, column) points
(source: `node.start_point` / `node.end_point`, end exclusive), its source
text (source: `node.text`) and its named children in order.  Parsing itself
(the tree-sitter grammar) is an external library; every function that the
repository applies to parsed trees is transcribed here and verified over
arbitrary (well-formed) trees.  File modification times are Python floats
in the source; only their ordering is ever used, so they are embedded as
naturals.
-/

namespace LineCompletion

/-- A point in a source buffer: 0-based row and column, as in tree-sitter
`start_point` / `end_point`. -/
structure Pt where
  row : Nat
  col : Nat
deriving DecidableEq, Repr

/-- Lexicographic (row, column) order, the order tree-sitter uses to compare
points. -/
def ptLE (a b : Pt) : Bool :=
  decide (a.row < b.row) || (decide (a.row = b.row) && decide (a.col ≤ b.col))

/-- Strict lexicographic (row, column) order. -/
def ptLT (a b : Pt) : Bool :=
  decide (a.row < b.row) || (decide (a.row = b.row) && decide (a.col < b.col))

theorem ptLE_iff {a b : Pt} :
    ptLE a b = true ↔ a.row < b.row ∨ (a.row = b.row ∧ a.col ≤ b.col) := by
  simp [ptLE]

theorem ptLT_iff {a b : Pt} :
    ptLT a b = true ↔ a.row < b.row ∨ (a.row = b.row ∧ a.col < b.col) := by
  simp [ptLT]

theorem ptLE_refl (a : Pt) : ptLE a a = true := by
  rw [ptLE_iff]; omega

theorem ptLE_trans {a b c : Pt} (h₁ : ptLE a b = true) (h₂ : ptLE b c = true) :
    ptLE a c = true := by
  rw [ptLE_iff] at h₁ h₂ ⊢; omega

theorem ptLT_of_LT_of_LE {a b c : Pt} (h₁ : ptLT a b = true)
    (h₂ : ptLE b c = true) : ptLT a c = true := by
  rw [ptLT_iff] at h₁ ⊢; rw [ptLE_iff] at h₂; omega

theorem ptLT_LE_absurd {a b : Pt} (h₁ : ptLT a b = true)
    (h₂ : ptLE b a = true) : False := by
  rw [ptLT_iff] at h₁; rw [ptLE_iff] at h₂; omega

/-- A named node of a tree-sitter concrete syntax tree.  `kind` is the node
type string (source: `node.type`); `fieldLabel` is the grammar field this
node occupies in its parent (`some "name"`, `some "function"`, ...) or
`none` when it is an unlabelled child; `sp`/`ep` are `start_point` /
`end_point`; `text` is the node's decoded source text; `children` are the
named children in document order. -/
inductive Node where
  | mk (kind : String) (fieldLabel : Option String) (sp ep : Pt)
      (text : String) (children : List Node)

def Node.kind : Node → String
  | .mk k _ _ _ _ _ => k

def Node.fieldLabel : Node → Option String
  | .mk _ f _ _ _ _ => f

def Node.sp : Node → Pt
  | .mk _ _ s _ _ _ => s

def Node.ep : Node → Pt
  | .mk _ _ _ e _ _ => e

def Node.text : Node → String
  | .mk _ _ _ _ t _ => t

def Node.children : Node → List Node
  | .mk _ _ _ _ _ cs => cs

theorem Node.sizeOf_children_lt (n : Node) : sizeOf n.children < sizeOf n := by
  cases n with
  | mk k f s e t cs => simp [Node.children]

/-- Induction over a node and (inductively) all of its children. -/
theorem Node.recMem {P : Node → Prop}
    (h : ∀ k f sp ep tx cs, (∀ c ∈ cs, P c) → P (Node.mk k f sp ep tx cs)) :
    ∀ n, P n := by
  intro n
  have key : ∀ m : Nat, ∀ n : Node, sizeOf n ≤ m → P n := by
    intro m
    induction m with
    | zero =>
      intro n hn
      cases n with
      | mk k f sp ep tx cs => simp at hn
    | succ m ih =>
      intro n hn
      cases n with
      | mk k f sp ep tx cs =>
        apply h
        intro c hc
        apply ih
        have h₁ := List.sizeOf_lt_of_mem hc
        have h₂ : sizeOf cs < sizeOf (Node.mk k f sp ep tx cs) := by
          simp
        omega
  exact key (sizeOf n) n (Nat.le_refl _)

/-- `child_by_field_name`: the first child carrying the given field label
(source: `node.child_by_field_name('name')` etc.). -/
def childByFieldName (n : Node) (f : String) : Option Node :=
  n.children.find? (fun c => c.fieldLabel == some f)

/-- Whether the span of `n` fully contains the point range `[s, e)` — the
containment test underlying tree-sitter's
`named_descendant_for_point_range`. -/
def containsR (n : Node) (s e : Pt) : Bool :=
  ptLE n.sp s && ptLE e n.ep

mutual

/-- All nodes of the subtree rooted at `n`, in document (pre-)order. -/
def preorder (n : Node) : List Node :=
  match n with
  | .mk k f sp ep tx cs => .mk k f sp ep tx cs :: preorderList cs

/-- All nodes of the subtrees rooted at the nodes of `l`, in document
order. -/
def preorderList (l : List Node) : List Node :=
  match l with
  | [] => []
  | c :: cs => preorder c ++ preorderList cs

end

mutual

/-- The chain of nodes visited by tree-sitter's
`named_descendant_for_point_range` when descending from `n` (which must
contain the range): `n`, then the descent through the first child whose
span contains `[s, e)`, recursively.  The returned node of the library
call is the last element of this chain; the `node.parent` chain walked by
the source is the chain read backwards. -/
def descendNode (n : Node) (s e : Pt) : List Node :=
  match n with
  | .mk k f sp ep tx cs => .mk k f sp ep tx cs :: descendList cs s e

/-- Descend into the first child of the list whose span contains
`[s, e)`. -/
def descendList (l : List Node) (s e : Pt) : List Node :=
  match l with
  | [] => []
  | c :: cs => if containsR c s e then descendNode c s e else descendList cs s e

end

/-- `named_descendant_for_point_range` of the root: `some` descent chain if
the root's span contains the range, else `none` (the library returns `None`,
source: `if not node: continue`). -/
def descendantChain (root : Node) (s e : Pt) : Option (List Node) :=
  if containsR root s e then some (descendNode root s e) else none

/-- Each child's span lies within `[sp, ep)`. -/
def childrenWithin (sp ep : Pt) : List Node → Bool
  | [] => true
  | c :: cs => ptLE sp c.sp && ptLE c.ep ep && childrenWithin sp ep cs

/-- Consecutive siblings occupy disjoint, ordered spans. -/
def childrenOrdered : List Node → Bool
  | [] => true
  | [_] => true
  | a :: b :: cs => ptLE a.ep b.sp && childrenOrdered (b :: cs)

mutual

/-- Well-formedness of a tree-sitter tree: every node has a valid span,
children lie within their parent and are ordered and pairwise disjoint. -/
def nodeWF (n : Node) : Bool :=
  match n with
  | .mk _ _ sp ep _ cs =>
    ptLE sp ep && childrenWithin sp ep cs && childrenOrdered cs && listWF cs

def listWF (l : List Node) : Bool :=
  match l with
  | [] => true
  | c :: cs => nodeWF c && listWF cs

end

/-- `needle` is an initial segment of `hay` (character lists). -/
def startsWithL : List Char → List Char → Bool
  | _, [] => true
  | [], _ :: _ => false
  | a :: as, b :: bs => a == b && startsWithL as bs

/-- Contiguous-substring test on character lists. -/
def substrL : List Char → List Char → Bool
  | needle, [] => needle.isEmpty
  | needle, h :: t => startsWithL (h :: t) needle || substrL needle t

/-- Python's `needle in hay` on strings: contiguous substring test
(source: `symbol_location.name not in node_func_name`,
`func_name not in node_func_name`). -/
def isSubstr (needle hay : String) : Bool :=
  substrL needle.data hay.data

/-- The target node types of the `/symbol_source` ancestor walk
(source: `target_node_types = {'function_definition', 'class_definition'}`). -/
def isDefKind (n : Node) : Bool :=
  n.kind == "function_definition" || n.kind == "class_definition"

/-- The `while node and node.type not in target_node_types: node =
node.parent` walk of `symbol_source`, run over the reversed descent chain
(the node itself first, then its parents up to the root).  Returns the
first node of definition type together with its remaining strict
ancestors (nearest ancestor first), or `none` when the walk exhausts the
chain. -/
def findDefSplit : List Node → Option (Node × List Node)
  | [] => none
  | n :: rest => if isDefKind n then some (n, rest) else findDefSplit rest

/-- The `while node and node.type != 'function_definition'` walk of
`get_funcs` (rag.py), over the reversed descent chain: only
`function_definition` nodes stop the walk. -/
def findFuncNode : List Node → Option Node
  | [] => none
  | n :: rest => if n.kind == "function_definition" then some n else findFuncNode rest

/-- The `expand_to_class` widening loop of `symbol_source`:

    parent = node.parent
    while parent:
        if parent.type == 'class_definition':
            node = parent
        parent = parent.parent

`anc` is the strict-ancestor chain of the node, nearest ancestor first;
`cur` is the current value of `node`.  Each `class_definition` ancestor
overwrites `node`, so the surviving value is the last — i.e. outermost —
class ancestor. -/
def widenLoop (cur : Node) : List Node → Node
  | [] => cur
  | p :: rest => widenLoop (if p.kind == "class_definition" then p else cur) rest

/-- One entry of the `/symbol_source` request body (source: class
`SymbolLocation`).  `endCol` is exclusive. -/
structure SymbolLocation where
  name : String
  path : String
  startLine : Nat
  startCol : Nat
  endLine : Nat
  endCol : Nat
  expandToCls : Bool
deriving DecidableEq, Repr

/-- One entry of the `/symbol_source` response. -/
structure ResolveResult where
  start_line : Nat
  start_col : Nat
  text : String
deriving DecidableEq, Repr

/-- A Python exception escaping a query: the `AttributeError` raised by
`node.child_by_field_name('name').text` when the definition node has no
`name` child (the spec's `MalformedNodeError`). -/
inductive QueryError where
  | malformedNode
deriving DecidableEq, Repr

/-- The body of the `for symbol_location in symbol_locations` loop of
`/symbol_source` (main.py), for one entry, applied to the tree obtained
from the cache: `Except.error` models an escaping exception, `Except.ok
none` a silently skipped entry (`continue`), `Except.ok (some r)` an
appended result. -/
def symbolSourceOne (tree : Node) (q : SymbolLocation) : Except QueryError (Option ResolveResult) :=
  match descendantChain tree ⟨q.startLine, q.startCol⟩ ⟨q.endLine, q.endCol⟩ with
  | none => .ok none
  | some chain =>
    match findDefSplit chain.reverse with
    | none => .ok none
    | some (node, anc) =>
      match childByFieldName node "name" with
      | none => .error .malformedNode
      | some nameNode =>
        if q.name ≠ "" ∧ isSubstr q.name nameNode.text = false then .ok none
        else
          let finalNode :=
            if node.kind = "function_definition" ∧ q.expandToCls = true then
              widenLoop node anc
            else node
          .ok (some ⟨finalNode.sp.row, finalNode.sp.col, finalNode.text⟩)

/-- The cache dictionary of `TreeCache` (`self.cache: dict[str,
tuple[float, tree_sitter.Tree]]`), embedded as a map from paths to
(mtime, tree) pairs.  Modification times are embedded as naturals. -/
def CacheMap := String → Option (Nat × Node)

/-- The empty cache (`self.cache = {}`). -/
def emptyCache : CacheMap := fun _ => none

/-- `TreeCache.get` (identical in main.py and rag.py).  `parse` embeds the
tree-sitter parser (`tree_sitter.Parser(PY_LANG).parse`), `fs` the file
system: `fs p = (mtime, content)` stands for `os.path.getmtime(p)` and
`open(p, 'rb').read()`.  Returns the tree, the cache after the call, and
whether the file content was read.

    file_modified_time = os.path.getmtime(filepath)
    if filepath in self.cache and file_modified_time <= self.cache[filepath][0]:
        return self.cache[filepath][1]
    with open(filepath, 'rb') as f:
        source_code = f.read()
    tree = parser.parse(source_code)
    self.cache[filepath] = (file_modified_time, tree)
    return tree
-/
def TreeCache.get (parse : String → Node) (fs : String → Nat × String)
    (cache : CacheMap) (filepath : String) : Node × CacheMap × Bool :=
  let file_modified_time := (fs filepath).1
  match cache filepath with
  | some (stored_mtime, stored_tree) =>
    if file_modified_time ≤ stored_mtime then (stored_tree, cache, false)
    else
      let tree := parse (fs filepath).2
      (tree, fun q => if q = filepath then some (file_modified_time, tree) else cache q, true)
  | none =>
    let tree := parse (fs filepath).2
    (tree, fun q => if q = filepath then some (file_modified_time, tree) else cache q, true)

/-- The tree a `TreeCache.get` call on `filepath` returns, given the cache
state `cache`: the projection of `TreeCache.get` onto its result. -/
def treeFor (parse : String → Node) (fs : String → Nat × String)
    (cache : CacheMap) (filepath : String) : Node :=
  (TreeCache.get parse fs cache filepath).1

/-- The `for symbol_location in symbol_locations` loop of the
`/symbol_source` handler: per entry, fetch the tree through the shared
`tree_cache`, run the resolution body, skip `continue`d entries, append
results in order; an escaping exception aborts the whole request. -/
def symbol_source (parse : String → Node) (fs : String → Nat × String) :
    CacheMap → List SymbolLocation → Except QueryError (List ResolveResult) × CacheMap
  | cache, [] => (.ok [], cache)
  | cache, q :: qs =>
    let step := TreeCache.get parse fs cache q.path
    match symbolSourceOne step.1 q with
    | .error e => (.error e, step.2.1)
    | .ok none => symbol_source parse fs step.2.1 qs
    | .ok (some r) =>
      match symbol_source parse fs step.2.1 qs with
      | (.ok rs, cache') => (.ok (r :: rs), cache')
      | ((.error e), cache') => (.error e, cache')

/-- A `FunctionReference` record of rag.py (`@dataclass FunctionReference`):
filepath, 0-based definition start row, full definition text, file
modification time. -/
structure FunctionReference where
  filepath : String
  line : Nat
  text : String
  last_modified_timestamp_epoch : Nat
deriving DecidableEq, Repr

/-- The body of the `for filepath, line in func_locations` loop of
`get_funcs` (rag.py), for one (filepath, 1-based line) hit of the external
`rg` search, applied to the tree obtained from the cache:

    node = root_node.named_descendant_for_point_range((line - 1, 0), (line - 1, 1000))
    if not node: continue
    while node and node.type != 'function_definition': node = node.parent
    if not node or node.type != 'function_definition': continue
    node_func_name = node.child_by_field_name('name').text.decode('utf-8')
    if func_name not in node_func_name: continue
    funcs.append(FunctionReference(filepath, node.start_point.row,
        node.text.decode('utf-8'), os.path.getmtime(filepath)))
-/
def funcForHit (fs : String → Nat × String) (func_name : String) (tree : Node)
    (filepath : String) (line : Nat) : Except QueryError (Option FunctionReference) :=
  match descendantChain tree ⟨line - 1, 0⟩ ⟨line - 1, 1000⟩ with
  | none => .ok none
  | some chain =>
    match findFuncNode chain.reverse with
    | none => .ok none
    | some node =>
      match childByFieldName node "name" with
      | none => .error .malformedNode
      | some nameNode =>
        if isSubstr func_name nameNode.text = false then .ok none
        else .ok (some ⟨filepath, node.sp.row, node.text, (fs filepath).1⟩)

/-- The resolution loop of `get_funcs` (rag.py), over the `(filepath,
line)` hits the external `rg` full-text search returned, threading the
shared `tree_cache`. -/
def get_funcs (parse : String → Node) (fs : String → Nat × String) (func_name : String) :
    CacheMap → List (String × Nat) → Except QueryError (List FunctionReference) × CacheMap
  | cache, [] => (.ok [], cache)
  | cache, (filepath, line) :: hits =>
    let step := TreeCache.get parse fs cache filepath
    match funcForHit fs func_name step.1 filepath line with
    | .error e => (.error e, step.2.1)
    | .ok none => get_funcs parse fs func_name step.2.1 hits
    | .ok (some r) =>
      match get_funcs parse fs func_name step.2.1 hits with
      | (.ok rs, cache') => (.ok (r :: rs), cache')
      | ((.error e), cache') => (.error e, cache')

/-- The capture of one node by the tree-sitter query of
`get_called_functions_and_classes` (main.py):

    (call function: (identifier) @function_name)
    (call function: (attribute attribute: (identifier) @function_name))

A `call` node whose `function` field is a bare identifier captures that
identifier; a `call` whose `function` field is an attribute access
captures only the final accessed name. -/
def matchCall (n : Node) : Option Node :=
  if n.kind = "call" then
    match childByFieldName n "function" with
    | none => none
    | some f =>
      if f.kind = "identifier" then some f
      else if f.kind = "attribute" then
        match childByFieldName f "attribute" with
        | none => none
        | some a => if a.kind = "identifier" then some a else none
      else none
  else none

/-- `get_called_functions_and_classes` (main.py): all captures of the call
query over the parsed buffer, in document order. -/
def get_called_functions_and_classes (tree : Node) : List Node :=
  (preorder tree).filterMap matchCall

/-- The `/symbol_locations` handler body (`symbols`, main.py), applied to
the parsed file content: one `(name, row, column)` triple per structural
match, dropping captures whose text is a built-in name
(`if name in builtin_names: continue`) and captures outside the requested
inclusive line range (`if match.start_point.row < start_line or
match.start_point.row > end_line: continue`).  `builtinNames` embeds the
process-wide `builtin_names` set computed at startup by introspecting the
host standard library. -/
def symbols (builtinNames : List String) (tree : Node)
    (start_line end_line : Nat) : List (String × Nat × Nat) :=
  (get_called_functions_and_classes tree).filterMap fun m =>
    if builtinNames.contains m.text then none
    else if m.sp.row < start_line ∨ m.sp.row > end_line then none
    else some (m.text, m.sp.row, m.sp.col)

/-- A concrete parser stand-in for witnesses: wraps the content in a
single `module` node. -/
def witParse (s : String) : Node :=
  Node.mk "module" none ⟨0, 0⟩ ⟨0, 0⟩ s []

/-- A concrete file system for witnesses: every path has mtime 5 and its
own name as content. -/
def witFs (p : String) : Nat × String := (5, p)

/-- A concrete cache for witnesses: a fresh entry for "a" (stored mtime 7 ≥
current 5), a stale entry for "b" (stored mtime 3 < current 5), nothing
else. -/
def witCache : CacheMap := fun p =>
  if p = "a" then some (7, Node.mk "module" none ⟨0, 0⟩ ⟨0, 0⟩ "old" [])
  else if p = "b" then some (3, Node.mk "module" none ⟨0, 0⟩ ⟨0, 0⟩ "old" [])
  else none

/-- C1: `TreeCache.get` serves a fresh cached entry without touching the
file content (no read, cache unchanged), and otherwise — stale entry or no
entry — reads and parses the current content, stores `(current_mtime,
tree)` under the path, and returns the freshly parsed tree. -/
theorem treeCacheGet_spec (parse : String → Node) (fs : String → Nat × String)
    (cache : CacheMap) (p : String) :
    (∀ sm t, cache p = some (sm, t) → (fs p).1 ≤ sm →
      TreeCache.get parse fs cache p = (t, cache, false)) ∧
    (∀ sm t, cache p = some (sm, t) → sm < (fs p).1 →
      TreeCache.get parse fs cache p =
        (parse (fs p).2,
         fun q => if q = p then some ((fs p).1, parse (fs p).2) else cache q,
         true)) ∧
    (cache p = none →
      TreeCache.get parse fs cache p =
        (parse (fs p).2,
         fun q => if q = p then some ((fs p).1, parse (fs p).2) else cache q,
         true)) := by
  refine ⟨?_, ?_, ?_⟩
  · intro sm t h hle
    simp [TreeCache.get, h, hle]
  · intro sm t h hlt
    have : ¬ (fs p).1 ≤ sm := by omega
    simp [TreeCache.get, h, this]
  · intro h
    simp [TreeCache.get, h]

/-- C1 witness: a concrete cache with a fresh entry for "a", a stale entry
for "b" and no entry for "c", against a file system whose files all have
mtime 5. -/
theorem treeCacheGet_spec_witness :
    (witCache "a" = some (7, Node.mk "module" none ⟨0, 0⟩ ⟨0, 0⟩ "old" []) ∧
      TreeCache.get witParse witFs witCache "a" =
        (Node.mk "module" none ⟨0, 0⟩ ⟨0, 0⟩ "old" [], witCache, false)) ∧
    (witCache "b" = some (3, Node.mk "module" none ⟨0, 0⟩ ⟨0, 0⟩ "old" []) ∧
      TreeCache.get witParse witFs witCache "b" =
        (witParse (witFs "b").2,
         fun q => if q = "b" then some ((witFs "b").1, witParse (witFs "b").2) else witCache q,
         true)) ∧
    (witCache "c" = none ∧
      TreeCache.get witParse witFs witCache "c" =
        (witParse (witFs "c").2,
         fun q => if q = "c" then some ((witFs "c").1, witParse (witFs "c").2) else witCache q,
         true)) :=
  ⟨⟨by rfl, (treeCacheGet_spec witParse witFs witCache "a").1 7
      (Node.mk "module" none ⟨0, 0⟩ ⟨0, 0⟩ "old" []) (by rfl) (by decide)⟩,
   ⟨by rfl, (treeCacheGet_spec witParse witFs witCache "b").2.1 3
      (Node.mk "module" none ⟨0, 0⟩ ⟨0, 0⟩ "old" []) (by rfl) (by decide)⟩,
   ⟨by rfl, (treeCacheGet_spec witParse witFs witCache "c").2.2 (by rfl)⟩⟩

/-- C10: a `TreeCache.get` call on `p` leaves the entry of every other path
unchanged, and never removes an entry: any path cached before the call is
still cached after it. -/
theorem treeCacheGet_frame (parse : String → Node) (fs : String → Nat × String)
    (cache : CacheMap) (p : String) :
    (∀ q, q ≠ p → (TreeCache.get parse fs cache p).2.1 q = cache q) ∧
    (∀ q v, cache q = some v → ∃ w, (TreeCache.get parse fs cache p).2.1 q = some w) := by
  constructor
  · intro q hq
    unfold TreeCache.get
    match h : cache p with
    | some (sm, t) =>
      by_cases hle : (fs p).1 ≤ sm <;> simp [h, hle, hq]
    | none => simp [h, hq]
  · intro q v hv
    unfold TreeCache.get
    match h : cache p with
    | some (sm, t) =>
      by_cases hle : (fs p).1 ≤ sm <;> by_cases hq : q = p <;>
        simp [h, hle, hq] <;> exact ⟨v.1, v.2, hv⟩
    | none =>
      by_cases hq : q = p
      · simp [h, hq]
      · simp [h, hq]
        exact ⟨v.1, v.2, hv⟩

/-- C10 witness: the get on "b" (a stale entry, hence an overwrite) leaves
the entry of "a" unchanged, and "a" is still cached afterwards. -/
theorem treeCacheGet_frame_witness :
    (TreeCache.get witParse witFs witCache "b").2.1 "a" = witCache "a" ∧
    ∃ w, (TreeCache.get witParse witFs witCache "b").2.1 "a" = some w :=
  ⟨(treeCacheGet_frame witParse witFs witCache "b").1 "a" (by decide),
   (treeCacheGet_frame witParse witFs witCache "b").2 "a"
     (7, Node.mk "module" none ⟨0, 0⟩ ⟨0, 0⟩ "old" []) (by rfl)⟩

/-- The tree `TreeCache.get` returns for any path is unchanged by a prior
`TreeCache.get` call (on any path): within one request, every lookup of a
path yields the same tree no matter how the shared cache was advanced by
earlier lookups. -/
theorem treeFor_get_stable (parse : String → Node) (fs : String → Nat × String)
    (cache : CacheMap) (p q : String) :
    treeFor parse fs (TreeCache.get parse fs cache p).2.1 q = treeFor parse fs cache q := by
  unfold treeFor TreeCache.get
  match h : cache p with
  | some (sm, t) =>
    by_cases hle : (fs p).1 ≤ sm
    · simp [h, hle]
    · by_cases hq : q = p
      · subst hq
        simp [h, hle]
      · simp only [h, hle, if_neg hq, ite_false]
        match hcq : cache q with
        | some (sm', t') =>
          by_cases h2 : (fs q).1 ≤ sm' <;> simp [hcq, h2]
        | none => simp [hcq]
  | none =>
    by_cases hq : q = p
    · subst hq
      simp [h]
    · simp only [h, if_neg hq]
      match hcq : cache q with
      | some (sm', t') =>
        by_cases h2 : (fs q).1 ≤ sm' <;> simp [hcq, h2]
      | none => simp [hcq]

/-! Concrete trees used to instantiate the theorems: the models of the
tree-sitter parses of small Python files. -/

/-- The parse of the spec's two-function file: `alpha` spans lines 0-2,
`beta` spans lines 4-6. -/
def alphaNameNode : Node :=
  .mk "identifier" (some "name") ⟨0, 4⟩ ⟨0, 9⟩ "alpha" []

def alphaNode : Node :=
  .mk "function_definition" none ⟨0, 0⟩ ⟨2, 12⟩ "def alpha():\n    x = 1\n    return x"
    [alphaNameNode,
     .mk "parameters" (some "parameters") ⟨0, 9⟩ ⟨0, 11⟩ "()" [],
     .mk "block" (some "body") ⟨1, 4⟩ ⟨2, 12⟩ "x = 1\n    return x" []]

def betaNode : Node :=
  .mk "function_definition" none ⟨4, 0⟩ ⟨6, 12⟩ "def beta():\n    y = 2\n    return y"
    [.mk "identifier" (some "name") ⟨4, 4⟩ ⟨4, 8⟩ "beta" [],
     .mk "parameters" (some "parameters") ⟨4, 8⟩ ⟨4, 10⟩ "()" [],
     .mk "block" (some "body") ⟨5, 4⟩ ⟨6, 12⟩ "y = 2\n    return y" []]

def twoFuncTree : Node :=
  .mk "module" none ⟨0, 0⟩ ⟨6, 12⟩
    "def alpha():\n    x = 1\n    return x\n\ndef beta():\n    y = 2\n    return y"
    [alphaNode, betaNode]

/-- The parse of a file with a method nested in two classes:
`class Outer: / class Inner: / def method(self): / pass`. -/
def methodNameNode : Node :=
  .mk "identifier" (some "name") ⟨2, 12⟩ ⟨2, 18⟩ "method" []

def methodBodyNode : Node :=
  .mk "block" (some "body") ⟨3, 12⟩ ⟨3, 16⟩ "pass" []

def methodNode : Node :=
  .mk "function_definition" none ⟨2, 8⟩ ⟨3, 16⟩ "def method(self):\n            pass"
    [methodNameNode,
     .mk "parameters" (some "parameters") ⟨2, 18⟩ ⟨2, 24⟩ "(self)" [],
     methodBodyNode]

def innerBodyNode : Node :=
  .mk "block" (some "body") ⟨2, 8⟩ ⟨3, 16⟩ "def method(self):\n            pass"
    [methodNode]

def innerNode : Node :=
  .mk "class_definition" none ⟨1, 4⟩ ⟨3, 16⟩
    "class Inner:\n        def method(self):\n            pass"
    [.mk "identifier" (some "name") ⟨1, 10⟩ ⟨1, 15⟩ "Inner" [],
     innerBodyNode]

def outerBodyNode : Node :=
  .mk "block" (some "body") ⟨1, 4⟩ ⟨3, 16⟩
    "class Inner:\n        def method(self):\n            pass" [innerNode]

def outerNode : Node :=
  .mk "class_definition" none ⟨0, 0⟩ ⟨3, 16⟩
    "class Outer:\n    class Inner:\n        def method(self):\n            pass"
    [.mk "identifier" (some "name") ⟨0, 6⟩ ⟨0, 11⟩ "Outer" [],
     outerBodyNode]

def nestedClassTree : Node :=
  .mk "module" none ⟨0, 0⟩ ⟨3, 16⟩
    "class Outer:\n    class Inner:\n        def method(self):\n            pass"
    [outerNode]

/-- The descent chain of the point range (3,12)-(3,14) in
`nestedClassTree`. -/
def nestedChain : List Node :=
  [nestedClassTree, outerNode, outerBodyNode, innerNode, innerBodyNode,
   methodNode, methodBodyNode]

/-- The strict ancestors of `methodNode` in `nestedClassTree`, nearest
first. -/
def methodAncestors : List Node :=
  [innerBodyNode, innerNode, outerBodyNode, outerNode, nestedClassTree]

/-- The parse of a file whose single function-definition node lacks a
`name` child (the grammar/version-mismatch situation behind
`MalformedNodeError`). -/
def malformedTree : Node :=
  .mk "module" none ⟨0, 0⟩ ⟨1, 10⟩ "def :\n    pass"
    [.mk "function_definition" none ⟨0, 0⟩ ⟨1, 10⟩ "def :\n    pass"
      [.mk "block" (some "body") ⟨1, 4⟩ ⟨1, 8⟩ "pass" []]]

/-- The parse of the two-call buffer `print(foo())\nobj.bar()`: a direct
call of the built-in `print`, a nested direct call of `foo`, and an
attribute call of `bar`. -/
def callBufferTree : Node :=
  .mk "module" none ⟨0, 0⟩ ⟨1, 9⟩ "print(foo())\nobj.bar()"
    [.mk "call" none ⟨0, 0⟩ ⟨0, 12⟩ "print(foo())"
      [.mk "identifier" (some "function") ⟨0, 0⟩ ⟨0, 5⟩ "print" [],
       .mk "argument_list" (some "arguments") ⟨0, 5⟩ ⟨0, 12⟩ "(foo())"
         [.mk "call" none ⟨0, 6⟩ ⟨0, 11⟩ "foo()"
           [.mk "identifier" (some "function") ⟨0, 6⟩ ⟨0, 9⟩ "foo" [],
            .mk "argument_list" (some "arguments") ⟨0, 9⟩ ⟨0, 11⟩ "()" []]]],
     .mk "call" none ⟨1, 0⟩ ⟨1, 9⟩ "obj.bar()"
      [.mk "attribute" (some "function") ⟨1, 0⟩ ⟨1, 7⟩ "obj.bar"
        [.mk "identifier" (some "object") ⟨1, 0⟩ ⟨1, 3⟩ "obj" [],
         .mk "identifier" (some "attribute") ⟨1, 4⟩ ⟨1, 7⟩ "bar" []],
       .mk "argument_list" (some "arguments") ⟨1, 7⟩ ⟨1, 9⟩ "()" []]]

/-- The parse of a buffer calling only built-ins: `print(len(x))`. -/
def builtinOnlyTree : Node :=
  .mk "module" none ⟨0, 0⟩ ⟨0, 13⟩ "print(len(x))"
    [.mk "call" none ⟨0, 0⟩ ⟨0, 13⟩ "print(len(x))"
      [.mk "identifier" (some "function") ⟨0, 0⟩ ⟨0, 5⟩ "print" [],
       .mk "argument_list" (some "arguments") ⟨0, 5⟩ ⟨0, 13⟩ "(len(x))"
         [.mk "call" none ⟨0, 6⟩ ⟨0, 12⟩ "len(x)"
           [.mk "identifier" (some "function") ⟨0, 6⟩ ⟨0, 9⟩ "len" [],
            .mk "argument_list" (some "arguments") ⟨0, 9⟩ ⟨0, 12⟩ "(x)"
              [.mk "identifier" none ⟨0, 10⟩ ⟨0, 11⟩ "x" []]]]]]

/-- A fragment of the process-wide built-in name set relevant to the
concrete buffers. -/
def someBuiltins : List String := ["print", "len", "sorted", "range"]

theorem symbols_filterMap_eq (bs : List String) (s e : Nat) (l : List Node) :
    (l.filterMap fun m =>
      if bs.contains m.text then none
      else if m.sp.row < s ∨ m.sp.row > e then none
      else some (m.text, m.sp.row, m.sp.col)) =
    (l.filter fun m =>
        !(bs.contains m.text) && decide (s ≤ m.sp.row) && decide (m.sp.row ≤ e)).map
      (fun m => (m.text, m.sp.row, m.sp.col)) := by
  induction l with
  | nil => rfl
  | cons m rest ih =>
    by_cases hb : m.text ∈ bs
    · simpa [List.filterMap_cons, List.filter_cons, hb] using ih
    · by_cases hs : s ≤ m.sp.row
      · by_cases he : m.sp.row ≤ e
        · have hnor : ¬ (m.sp.row < s ∨ m.sp.row > e) := by omega
          simpa [List.filterMap_cons, List.filter_cons, hb, hnor, hs, he] using ih
        · have hor : m.sp.row < s ∨ m.sp.row > e := by omega
          simpa [List.filterMap_cons, List.filter_cons, hb, hor, he] using ih
      · have hor : m.sp.row < s ∨ m.sp.row > e := by omega
        simpa [List.filterMap_cons, List.filter_cons, hb, hor, hs] using ih

/-- C8: the `/symbol_locations` handler emits exactly one `(name, row,
column)` triple per structural call match whose start row lies in the
inclusive range `[start_line, end_line]` and whose name is not a built-in —
matches with `row < start_line` or `row > end_line` are excluded, matches
on either boundary are included, and duplicates are preserved. -/
theorem C8_symbols_line_filter_inclusive (bs : List String) (tree : Node)
    (start_line end_line : Nat) :
    symbols bs tree start_line end_line =
      ((get_called_functions_and_classes tree).filter fun m =>
          !(bs.contains m.text) && decide (start_line ≤ m.sp.row) &&
            decide (m.sp.row ≤ end_line)).map
        (fun m => (m.text, m.sp.row, m.sp.col)) := by
  unfold symbols
  exact symbols_filterMap_eq bs start_line end_line _

/-- C7: the call-site pipeline never emits a triple whose name is in the
built-in set; a buffer all of whose structural call matches target
built-ins yields an empty list; and an attribute call captures exactly the
final accessed name. -/
theorem C7_builtin_exclusion (bs : List String) (tree : Node)
    (start_line end_line : Nat) :
    (∀ x ∈ symbols bs tree start_line end_line, bs.contains x.1 = false) ∧
    ((∀ m ∈ get_called_functions_and_classes tree, bs.contains m.text = true) →
      symbols bs tree start_line end_line = []) ∧
    (∀ n f a, n.kind = "call" → childByFieldName n "function" = some f →
      f.kind = "attribute" → childByFieldName f "attribute" = some a →
      a.kind = "identifier" → matchCall n = some a) := by
  refine ⟨?_, ?_, ?_⟩
  · intro x hx
    unfold symbols at hx
    rw [List.mem_filterMap] at hx
    obtain ⟨m, _, hm⟩ := hx
    by_cases hb : m.text ∈ bs
    · simp [hb] at hm
    · by_cases hr : m.sp.row < start_line ∨ m.sp.row > end_line
      · simp [hb, hr] at hm
      · simp [hb, hr] at hm
        rw [← hm]
        simpa using hb
  · intro hall
    unfold symbols
    rw [List.filterMap_eq_nil_iff]
    intro m hm
    have : m.text ∈ bs := by simpa using hall m hm
    simp [this]
  · intro n f a hcall hf hattr ha hid
    simp [matchCall, hcall, hf, hattr, ha, hid]

/-- C7 witness: over the `print(foo())\nobj.bar()` buffer, the emitted
entry ("foo", 0, 6) is not a built-in; the `print(len(x))` buffer, whose
calls all target built-ins, yields an empty list; and the `obj.bar`
attribute call captures exactly the final name `bar`. -/
theorem C7_builtin_exclusion_witness :
    (("foo", 0, 6) ∈ symbols someBuiltins callBufferTree 0 1 ∧
      someBuiltins.contains ("foo", 0, 6).1 = false) ∧
    symbols someBuiltins builtinOnlyTree 0 0 = [] ∧
    matchCall (.mk "call" none ⟨1, 0⟩ ⟨1, 9⟩ "obj.bar()"
      [.mk "attribute" (some "function") ⟨1, 0⟩ ⟨1, 7⟩ "obj.bar"
        [.mk "identifier" (some "object") ⟨1, 0⟩ ⟨1, 3⟩ "obj" [],
         .mk "identifier" (some "attribute") ⟨1, 4⟩ ⟨1, 7⟩ "bar" []],
       .mk "argument_list" (some "arguments") ⟨1, 7⟩ ⟨1, 9⟩ "()" []]) =
      some (.mk "identifier" (some "attribute") ⟨1, 4⟩ ⟨1, 7⟩ "bar" []) :=
  ⟨⟨by decide,
    (C7_builtin_exclusion someBuiltins callBufferTree 0 1).1 ("foo", 0, 6) (by decide)⟩,
   (C7_builtin_exclusion someBuiltins builtinOnlyTree 0 0).2.1 (by decide),
   (C7_builtin_exclusion someBuiltins callBufferTree 0 1).2.2
     (.mk "call" none ⟨1, 0⟩ ⟨1, 9⟩ "obj.bar()"
       [.mk "attribute" (some "function") ⟨1, 0⟩ ⟨1, 7⟩ "obj.bar"
         [.mk "identifier" (some "object") ⟨1, 0⟩ ⟨1, 3⟩ "obj" [],
          .mk "identifier" (some "attribute") ⟨1, 4⟩ ⟨1, 7⟩ "bar" []],
        .mk "argument_list" (some "arguments") ⟨1, 7⟩ ⟨1, 9⟩ "()" []])
     (.mk "attribute" (some "function") ⟨1, 0⟩ ⟨1, 7⟩ "obj.bar"
       [.mk "identifier" (some "object") ⟨1, 0⟩ ⟨1, 3⟩ "obj" [],
        .mk "identifier" (some "attribute") ⟨1, 4⟩ ⟨1, 7⟩ "bar" []])
     (.mk "identifier" (some "attribute") ⟨1, 4⟩ ⟨1, 7⟩ "bar" [])
     (by rfl) (by rfl) (by rfl) (by rfl) (by rfl)⟩

theorem getLast?_cons_getD {α : Type} (a cur : α) (l : List α) :
    ((a :: l).getLast?).getD cur = (l.getLast?).getD a := by
  cases l with
  | nil => rfl
  | cons b t =>
    rw [List.getLast?_cons_cons]
    cases h : (b :: t).getLast? with
    | none => simp at h
    | some x => rfl

/-- The widening loop keeps exactly the last `class_definition` found while
walking the ancestor chain from the node towards the root (i.e. the
outermost class ancestor), and the starting node when there is none. -/
theorem widenLoop_eq (l : List Node) : ∀ cur, widenLoop cur l =
    ((l.filter fun p => p.kind == "class_definition").getLast?).getD cur := by
  induction l with
  | nil => intro cur; rfl
  | cons p rest ih =>
    intro cur
    by_cases hp : p.kind = "class_definition"
    · have hb : (p.kind == "class_definition") = true := by simp [hp]
      simp only [widenLoop, List.filter_cons, hb, if_true, ite_true]
      rw [getLast?_cons_getD]
      exact ih p
    · have hb : (p.kind == "class_definition") = false := by simp [hp]
      simp only [widenLoop, List.filter_cons, hb, Bool.false_eq_true, if_false, ite_false]
      exact ih cur

/-- C3: for a resolve query with `expand_to_class` whose enclosing
definition is a function definition (and whose name-hint check passes),
the returned span and text are those of the widened node, and the widened
node is the LAST `class_definition` found when walking the parents all the
way to the root — the outermost class ancestor — or the original function
node unchanged when no class ancestor exists. -/
theorem C3_expand_to_outermost (tree : Node) (q : SymbolLocation)
    (chain : List Node) (node : Node) (anc : List Node) (nameNode : Node)
    (hchain : descendantChain tree ⟨q.startLine, q.startCol⟩ ⟨q.endLine, q.endCol⟩ =
      some chain)
    (hsplit : findDefSplit chain.reverse = some (node, anc))
    (hname : childByFieldName node "name" = some nameNode)
    (hhint : q.name = "" ∨ isSubstr q.name nameNode.text = true)
    (hfn : node.kind = "function_definition")
    (hexp : q.expandToCls = true) :
    symbolSourceOne tree q =
      .ok (some ⟨(widenLoop node anc).sp.row, (widenLoop node anc).sp.col,
        (widenLoop node anc).text⟩) ∧
    widenLoop node anc =
      ((anc.filter fun p => p.kind == "class_definition").getLast?).getD node := by
  constructor
  · have hcond : ¬ (q.name ≠ "" ∧ isSubstr q.name nameNode.text = false) := by
      rcases hhint with h | h
      · simp [h]
      · simp [h]
    simp only [symbolSourceOne, hchain, hsplit, hname]
    rw [if_neg hcond, if_pos ⟨hfn, hexp⟩]
  · exact widenLoop_eq anc node

/-- C3 witness: resolving the point range (3,12)-(3,14) inside `method`
(nested in `Inner`, nested in `Outer`) with `expand_to_class` returns the
outermost class `Outer`, not the nearest class `Inner`. -/
theorem C3_expand_to_outermost_witness :
    (symbolSourceOne nestedClassTree ⟨"", "f.py", 3, 12, 3, 14, true⟩ =
      .ok (some ⟨(widenLoop methodNode methodAncestors).sp.row,
        (widenLoop methodNode methodAncestors).sp.col,
        (widenLoop methodNode methodAncestors).text⟩) ∧
     widenLoop methodNode methodAncestors =
      ((methodAncestors.filter fun p => p.kind == "class_definition").getLast?).getD
        methodNode) ∧
    widenLoop methodNode methodAncestors = outerNode :=
  ⟨C3_expand_to_outermost nestedClassTree ⟨"", "f.py", 3, 12, 3, 14, true⟩
      nestedChain methodNode methodAncestors methodNameNode
      (by rfl) (by rfl) (by rfl) (Or.inl rfl) (by rfl) (by rfl),
   by rfl⟩

/-- C4: with a non-empty name hint, a resolve query yields a result only
when the hint is a contiguous substring of the resolved definition's name:
a failed substring check yields no result; a passing check yields a
result; and an empty hint skips the check entirely and always yields a
result. -/
theorem C4_name_hint_filter (tree : Node) (q : SymbolLocation)
    (chain : List Node) (node : Node) (anc : List Node) (nameNode : Node)
    (hchain : descendantChain tree ⟨q.startLine, q.startCol⟩ ⟨q.endLine, q.endCol⟩ =
      some chain)
    (hsplit : findDefSplit chain.reverse = some (node, anc))
    (hname : childByFieldName node "name" = some nameNode) :
    (q.name ≠ "" → isSubstr q.name nameNode.text = false →
      symbolSourceOne tree q = .ok none) ∧
    (isSubstr q.name nameNode.text = true →
      ∃ r, symbolSourceOne tree q = .ok (some r)) ∧
    (q.name = "" → ∃ r, symbolSourceOne tree q = .ok (some r)) := by
  refine ⟨?_, ?_, ?_⟩
  · intro hne hsub
    simp only [symbolSourceOne, hchain, hsplit, hname]
    rw [if_pos ⟨hne, hsub⟩]
  · intro hsub
    have hcond : ¬ (q.name ≠ "" ∧ isSubstr q.name nameNode.text = false) := by
      simp [hsub]
    simp only [symbolSourceOne, hchain, hsplit, hname]
    rw [if_neg hcond]
    by_cases hw : node.kind = "function_definition" ∧ q.expandToCls = true
    · rw [if_pos hw]
      exact ⟨_, rfl⟩
    · rw [if_neg hw]
      exact ⟨_, rfl⟩
  · intro hq
    have hcond : ¬ (q.name ≠ "" ∧ isSubstr q.name nameNode.text = false) := by
      simp [hq]
    simp only [symbolSourceOne, hchain, hsplit, hname]
    rw [if_neg hcond]
    by_cases hw : node.kind = "function_definition" ∧ q.expandToCls = true
    · rw [if_pos hw]
      exact ⟨_, rfl⟩
    · rw [if_neg hw]
      exact ⟨_, rfl⟩

/-- C4 witness: on the two-function file, resolving inside `alpha` with the
hint "zeta" (a hint matching, say, only a comment) yields no result; the
hint "alp" (a substring of "alpha") yields a result; the empty hint yields
a result with no check. -/
theorem C4_name_hint_filter_witness :
    symbolSourceOne twoFuncTree ⟨"zeta", "f.py", 1, 0, 1, 5, false⟩ = .ok none ∧
    (∃ r, symbolSourceOne twoFuncTree ⟨"alp", "f.py", 1, 0, 1, 5, false⟩ = .ok (some r)) ∧
    (∃ r, symbolSourceOne twoFuncTree ⟨"", "f.py", 1, 0, 1, 5, false⟩ = .ok (some r)) :=
  ⟨(C4_name_hint_filter twoFuncTree ⟨"zeta", "f.py", 1, 0, 1, 5, false⟩
      [twoFuncTree, alphaNode] alphaNode [twoFuncTree] alphaNameNode
      (by rfl) (by rfl) (by rfl)).1 (by decide) (by rfl),
   (C4_name_hint_filter twoFuncTree ⟨"alp", "f.py", 1, 0, 1, 5, false⟩
      [twoFuncTree, alphaNode] alphaNode [twoFuncTree] alphaNameNode
      (by rfl) (by rfl) (by rfl)).2.1 (by rfl),
   (C4_name_hint_filter twoFuncTree ⟨"", "f.py", 1, 0, 1, 5, false⟩
      [twoFuncTree, alphaNode] alphaNode [twoFuncTree] alphaNameNode
      (by rfl) (by rfl) (by rfl)).2.2 (by rfl)⟩

/-! Structural lemmas about well-formed trees and the descent, leading to
the resolution-containment theorem (C2). -/

theorem preorder_eq (n : Node) : preorder n = n :: preorderList n.children := by
  cases n with
  | mk k f sp ep tx cs => rfl

theorem descendNode_eq (n : Node) (s e : Pt) :
    descendNode n s e = n :: descendList n.children s e := by
  cases n with
  | mk k f sp ep tx cs => rfl

theorem mem_preorder_self (n : Node) : n ∈ preorder n := by
  rw [preorder_eq]; exact List.mem_cons_self _ _

theorem mem_preorderList_iff {x : Node} {l : List Node} :
    x ∈ preorderList l ↔ ∃ c ∈ l, x ∈ preorder c := by
  induction l with
  | nil => simp [preorderList]
  | cons c cs ih => simp [preorderList, ih]

theorem nodeWF_parts {n : Node} (h : nodeWF n = true) :
    ptLE n.sp n.ep = true ∧ childrenWithin n.sp n.ep n.children = true ∧
      childrenOrdered n.children = true ∧ listWF n.children = true := by
  cases n with
  | mk k f sp ep tx cs =>
    rw [nodeWF] at h
    simp only [Bool.and_eq_true] at h
    exact ⟨h.1.1.1, h.1.1.2, h.1.2, h.2⟩

theorem listWF_mem {l : List Node} {c : Node} (h : listWF l = true) (hc : c ∈ l) :
    nodeWF c = true := by
  induction l with
  | nil => cases hc
  | cons a t ih =>
    rw [listWF] at h
    simp only [Bool.and_eq_true] at h
    rcases List.mem_cons.mp hc with rfl | hc'
    · exact h.1
    · exact ih h.2 hc'

theorem childrenWithin_mem {sp ep : Pt} {l : List Node} {c : Node}
    (h : childrenWithin sp ep l = true) (hc : c ∈ l) :
    ptLE sp c.sp = true ∧ ptLE c.ep ep = true := by
  induction l with
  | nil => cases hc
  | cons a t ih =>
    rw [childrenWithin] at h
    simp only [Bool.and_eq_true] at h
    rcases List.mem_cons.mp hc with rfl | hc'
    · exact ⟨h.1.1, h.1.2⟩
    · exact ih h.2 hc'

/-- In a well-formed tree, every node of a subtree lies within the
subtree's span. -/
theorem span_nested : ∀ n : Node, nodeWF n = true → ∀ x ∈ preorder n,
    ptLE n.sp x.sp = true ∧ ptLE x.ep n.ep = true := by
  apply Node.recMem
    (P := fun n => nodeWF n = true → ∀ x ∈ preorder n,
      ptLE n.sp x.sp = true ∧ ptLE x.ep n.ep = true)
  intro k f sp ep tx cs ih hwf x hx
  rw [preorder_eq] at hx
  rcases List.mem_cons.mp hx with rfl | hx'
  · exact ⟨ptLE_refl _, ptLE_refl _⟩
  · obtain ⟨c, hc, hxc⟩ := mem_preorderList_iff.mp hx'
    have hparts := nodeWF_parts hwf
    have hcwf : nodeWF c = true := listWF_mem hparts.2.2.2 hc
    have hcw := childrenWithin_mem hparts.2.1 hc
    have hrec := ih c hc hcwf x hxc
    exact ⟨ptLE_trans hcw.1 hrec.1, ptLE_trans hrec.2 hcw.2⟩

theorem childrenOrdered_tail {a : Node} {l : List Node}
    (h : childrenOrdered (a :: l) = true) : childrenOrdered l = true := by
  cases l with
  | nil => rfl
  | cons b t =>
    rw [childrenOrdered] at h
    simp only [Bool.and_eq_true] at h
    exact h.2

/-- In an ordered sibling list with valid spans, the head ends before every
later sibling starts. -/
theorem childrenOrdered_head : ∀ (l : List Node) (a : Node),
    childrenOrdered (a :: l) = true → (∀ x ∈ l, ptLE x.sp x.ep = true) →
    ∀ b ∈ l, ptLE a.ep b.sp = true := by
  intro l
  induction l with
  | nil => intro a _ _ b hb; cases hb
  | cons b' t ih =>
    intro a hord hspans b hb
    rw [childrenOrdered] at hord
    simp only [Bool.and_eq_true] at hord
    rcases List.mem_cons.mp hb with rfl | hb'
    · exact hord.1
    · have h1 : ptLE a.ep b'.sp = true := hord.1
      have h2 : ptLE b'.sp b'.ep = true := hspans b' (List.mem_cons_self _ _)
      have h3 : ptLE b'.ep b.sp = true := by
        apply ih b' hord.2 _ b hb'
        intro x hx
        exact hspans x (List.mem_cons_of_mem _ hx)
      exact ptLE_trans (ptLE_trans h1 h2) h3

/-- For a nonempty range, the descent picks exactly the (unique) containing
child: if `c` is a sibling containing the range, the descent through the
sibling list descends through `c`. -/
theorem descendList_pick : ∀ (cs : List Node) (c : Node) (s e : Pt),
    childrenOrdered cs = true → (∀ x ∈ cs, ptLE x.sp x.ep = true) →
    ptLT s e = true → c ∈ cs → containsR c s e = true →
    descendList cs s e = descendNode c s e := by
  intro cs
  induction cs with
  | nil => intro c s e _ _ _ hc; cases hc
  | cons a t ih =>
    intro c s e hord hspans hlt hc hcont
    by_cases ha : containsR a s e = true
    · rw [descendList, if_pos ha]
      rcases List.mem_cons.mp hc with rfl | hc'
      · rfl
      · by_cases hac : a = c
        · rw [hac]
        · exfalso
          have hend : ptLE a.ep c.sp = true := by
            apply childrenOrdered_head t a hord _ c hc'
            intro x hx
            exact hspans x (List.mem_cons_of_mem _ hx)
          rw [containsR, Bool.and_eq_true] at ha hcont
          have h1 : ptLE e c.sp = true := ptLE_trans ha.2 hend
          have h2 : ptLE e s = true := ptLE_trans h1 hcont.1
          exact ptLT_LE_absurd hlt h2
    · rw [descendList, if_neg ha]
      rcases List.mem_cons.mp hc with rfl | hc'
      · exact absurd hcont ha
      · apply ih c s e (childrenOrdered_tail hord) _ hlt hc' hcont
        intro x hx
        exact hspans x (List.mem_cons_of_mem _ hx)

/-- Every node on a sibling-list descent lies in the subtrees of the list
and contains the range. -/
theorem descendList_elems : ∀ cs : List Node,
    (∀ c ∈ cs, containsR c s e = true →
      ∀ x ∈ descendNode c s e, x ∈ preorder c ∧ containsR x s e = true) →
    ∀ x ∈ descendList cs s e, x ∈ preorderList cs ∧ containsR x s e = true := by
  intro cs
  induction cs with
  | nil => intro _ x hx; cases hx
  | cons c t ih =>
    intro hrec x hx
    rw [descendList] at hx
    by_cases hc : containsR c s e = true
    · rw [if_pos hc] at hx
      have := hrec c (List.mem_cons_self _ _) hc x hx
      exact ⟨mem_preorderList_iff.mpr ⟨c, List.mem_cons_self _ _, this.1⟩, this.2⟩
    · rw [if_neg hc] at hx
      have := ih (fun c' hc' => hrec c' (List.mem_cons_of_mem _ hc')) x hx
      obtain ⟨c', hc', hxc'⟩ := mem_preorderList_iff.mp this.1
      exact ⟨mem_preorderList_iff.mpr ⟨c', List.mem_cons_of_mem _ hc', hxc'⟩, this.2⟩

/-- Every node on the descent chain from `n` lies in `n`'s subtree and
contains the range. -/
theorem descendNode_elems : ∀ n : Node, containsR n s e = true →
    ∀ x ∈ descendNode n s e, x ∈ preorder n ∧ containsR x s e = true := by
  apply Node.recMem
    (P := fun n => containsR n s e = true →
      ∀ x ∈ descendNode n s e, x ∈ preorder n ∧ containsR x s e = true)
  intro k f sp ep tx cs ih hcont x hx
  rw [descendNode_eq] at hx
  rcases List.mem_cons.mp hx with rfl | hx'
  · exact ⟨mem_preorder_self _, hcont⟩
  · have := descendList_elems (Node.mk k f sp ep tx cs).children
      (fun c hc => ih c hc) x hx'
    rw [preorder_eq]
    exact ⟨List.mem_cons_of_mem _ this.1, this.2⟩

theorem find?_append_of_none {α : Type} {p : α → Bool} {l₁ l₂ : List α}
    (h : ∀ x ∈ l₁, p x = false) : (l₁ ++ l₂).find? p = l₂.find? p := by
  induction l₁ with
  | nil => rfl
  | cons a t ih =>
    rw [List.cons_append, List.find?_cons, h a (List.mem_cons_self _ _)]
    exact ih (fun x hx => h x (List.mem_cons_of_mem _ hx))

theorem find?_append_of_some {α : Type} {p : α → Bool} {l₁ l₂ : List α} {d : α}
    (h : l₁.find? p = some d) : (l₁ ++ l₂).find? p = some d := by
  induction l₁ with
  | nil => cases h
  | cons a t ih =>
    rw [List.find?_cons] at h
    rw [List.cons_append, List.find?_cons]
    cases hpa : p a with
    | true => rw [hpa] at h; exact h
    | false => rw [hpa] at h; exact ih h

/-- In a well-formed tree, for a nonempty range contained in a definition
node `D` such that no definition strictly inside `D` contains the range,
the parent walk from the descent's smallest node stops exactly at `D`. -/
theorem descend_finds_def {s e : Pt} {D : Node}
    (hlt : ptLT s e = true) (hD : isDefKind D = true)
    (hDcont : containsR D s e = true)
    (hnarrow : ∀ X ∈ preorderList D.children,
      isDefKind X = true → containsR X s e = false) :
    ∀ n : Node, nodeWF n = true → containsR n s e = true → D ∈ preorder n →
    ((descendNode n s e).reverse.find? fun x => isDefKind x) = some D := by
  apply Node.recMem
    (P := fun n => nodeWF n = true → containsR n s e = true → D ∈ preorder n →
      ((descendNode n s e).reverse.find? fun x => isDefKind x) = some D)
  intro k f sp ep tx cs ih hwf hcont hmem
  rw [preorder_eq] at hmem
  rcases List.mem_cons.mp hmem with heq | hmem'
  · rw [descendNode_eq, List.reverse_cons]
    have hnone : ∀ x ∈ (descendList (Node.mk k f sp ep tx cs).children s e).reverse,
        isDefKind x = false := by
      intro x hx
      rw [List.mem_reverse] at hx
      have hel := descendList_elems (Node.mk k f sp ep tx cs).children
        (fun c hc => descendNode_elems c) x hx
      by_cases hdx : isDefKind x = true
      · exfalso
        have := hnarrow x (by rw [heq]; exact hel.1) hdx
        rw [this] at hel
        exact absurd hel.2 (by simp)
      · simpa using hdx
    rw [find?_append_of_none hnone, List.find?_cons]
    have : isDefKind (Node.mk k f sp ep tx cs) = true := by rw [← heq]; exact hD
    rw [this, heq]
  · obtain ⟨c, hc, hDc⟩ := mem_preorderList_iff.mp hmem'
    have hparts := nodeWF_parts hwf
    have hcwf : nodeWF c = true := listWF_mem hparts.2.2.2 hc
    have hccont : containsR c s e = true := by
      have hsn := span_nested c hcwf D hDc
      rw [containsR, Bool.and_eq_true] at hDcont ⊢
      exact ⟨ptLE_trans hsn.1 hDcont.1, ptLE_trans hDcont.2 hsn.2⟩
    have hpick : descendList (Node.mk k f sp ep tx cs).children s e =
        descendNode c s e := by
      apply descendList_pick _ c s e hparts.2.2.1 _ hlt hc hccont
      intro x hx
      exact (nodeWF_parts (listWF_mem hparts.2.2.2 hx)).1
    rw [descendNode_eq, hpick, List.reverse_cons]
    exact find?_append_of_some (ih c hc hcwf hccont hDc)

theorem find?_some_findDefSplit : ∀ {l : List Node} {d : Node},
    (l.find? fun x => isDefKind x) = some d →
    ∃ rest, findDefSplit l = some (d, rest) := by
  intro l
  induction l with
  | nil => intro d h; cases h
  | cons a t ih =>
    intro d h
    cases hpa : isDefKind a with
    | true =>
      simp only [List.find?_cons, hpa] at h
      cases h
      exact ⟨t, by rw [findDefSplit, if_pos hpa]⟩
    | false =>
      simp only [List.find?_cons, hpa] at h
      obtain ⟨rest, hr⟩ := ih h
      refine ⟨rest, ?_⟩
      rw [findDefSplit, if_neg (by simp [hpa])]
      exact hr

/-- C2: in a well-formed tree, a resolve query whose nonempty point range
lies fully inside the span of a definition node `D` and inside no
definition narrower than `D` resolves (with empty hint, without widening)
to exactly `D` — `D`'s start point and full text; and a query range not
contained in the root's span (e.g. past the end of the file content)
produces no result. -/
theorem C2_resolution_containment :
    (∀ (tree D nameNode : Node) (q : SymbolLocation),
      nodeWF tree = true → D ∈ preorder tree → isDefKind D = true →
      containsR D ⟨q.startLine, q.startCol⟩ ⟨q.endLine, q.endCol⟩ = true →
      ptLT ⟨q.startLine, q.startCol⟩ ⟨q.endLine, q.endCol⟩ = true →
      (∀ X ∈ preorderList D.children, isDefKind X = true →
        containsR X ⟨q.startLine, q.startCol⟩ ⟨q.endLine, q.endCol⟩ = false) →
      childByFieldName D "name" = some nameNode →
      q.name = "" → q.expandToCls = false →
      symbolSourceOne tree q = .ok (some ⟨D.sp.row, D.sp.col, D.text⟩)) ∧
    (∀ (tree : Node) (q : SymbolLocation),
      containsR tree ⟨q.startLine, q.startCol⟩ ⟨q.endLine, q.endCol⟩ = false →
      symbolSourceOne tree q = .ok none) := by
  constructor
  · intro tree D nameNode q hwf hmem hdef hcont hlt hnarrow hname hq hexp
    have htree : containsR tree ⟨q.startLine, q.startCol⟩ ⟨q.endLine, q.endCol⟩ = true := by
      have hsn := span_nested tree hwf D hmem
      rw [containsR, Bool.and_eq_true] at hcont ⊢
      exact ⟨ptLE_trans hsn.1 hcont.1, ptLE_trans hcont.2 hsn.2⟩
    have hfind := descend_finds_def hlt hdef hcont hnarrow tree hwf htree hmem
    obtain ⟨rest, hsplit⟩ := find?_some_findDefSplit hfind
    have hchain : descendantChain tree ⟨q.startLine, q.startCol⟩ ⟨q.endLine, q.endCol⟩ =
        some (descendNode tree ⟨q.startLine, q.startCol⟩ ⟨q.endLine, q.endCol⟩) := by
      rw [descendantChain, if_pos htree]
    simp only [symbolSourceOne, hchain, hsplit, hname]
    rw [if_neg (by simp [hq]), if_neg (by simp [hexp])]
  · intro tree q hmiss
    have hchain : descendantChain tree ⟨q.startLine, q.startCol⟩ ⟨q.endLine, q.endCol⟩ =
        none := by
      rw [descendantChain, if_neg (by simp [hmiss])]
    simp only [symbolSourceOne, hchain]

/-- C2 witness: on the spec's two-function file, resolving the range
(1,0)-(1,5), which lies inside `alpha` (lines 0-2) and inside no narrower
definition, returns `alpha`'s start point (0,0) and full text; resolving
(8,0)-(8,1), past the end of the file content, returns no result. -/
theorem C2_resolution_containment_witness :
    symbolSourceOne twoFuncTree ⟨"", "f.py", 1, 0, 1, 5, false⟩ =
      .ok (some ⟨alphaNode.sp.row, alphaNode.sp.col, alphaNode.text⟩) ∧
    symbolSourceOne twoFuncTree ⟨"", "f.py", 8, 0, 8, 1, false⟩ = .ok none :=
  ⟨C2_resolution_containment.1 twoFuncTree alphaNode alphaNameNode
      ⟨"", "f.py", 1, 0, 1, 5, false⟩ (by rfl)
      (by
        rw [preorder_eq]
        apply List.mem_cons_of_mem
        apply mem_preorderList_iff.mpr
        exact ⟨alphaNode, List.mem_cons_self _ _, mem_preorder_self _⟩)
      (by rfl) (by rfl) (by rfl) (by decide) (by rfl) (by rfl) (by rfl),
   C2_resolution_containment.2 twoFuncTree ⟨"", "f.py", 8, 0, 8, 1, false⟩ (by rfl)⟩

/-- The batch loop of `/symbol_source`, when no entry raises: one result
per successfully resolved entry, computed against the trees as served from
the initial cache state, failures skipped. -/
theorem symbol_source_ok_of_stable (parse : String → Node) (fs : String → Nat × String)
    (cache₀ : CacheMap) : ∀ (qs : List SymbolLocation) (st : CacheMap),
    (∀ p, treeFor parse fs st p = treeFor parse fs cache₀ p) →
    (∀ q ∈ qs, symbolSourceOne (treeFor parse fs cache₀ q.path) q ≠ .error .malformedNode) →
    (symbol_source parse fs st qs).1 = .ok (qs.filterMap fun q =>
      match symbolSourceOne (treeFor parse fs cache₀ q.path) q with
      | .ok r => r
      | .error _ => none) := by
  intro qs
  induction qs with
  | nil => intro st _ _; rfl
  | cons q rest ih =>
    intro st hstable hok
    have htree : (TreeCache.get parse fs st q.path).1 =
        treeFor parse fs cache₀ q.path := hstable q.path
    have hstable' : ∀ p,
        treeFor parse fs (TreeCache.get parse fs st q.path).2.1 p =
        treeFor parse fs cache₀ p := by
      intro p
      rw [treeFor_get_stable]
      exact hstable p
    have hok' : ∀ q' ∈ rest,
        symbolSourceOne (treeFor parse fs cache₀ q'.path) q' ≠ .error .malformedNode :=
      fun q' hq' => hok q' (List.mem_cons_of_mem _ hq')
    simp only [symbol_source, htree, List.filterMap_cons]
    cases hone : symbolSourceOne (treeFor parse fs cache₀ q.path) q with
    | error err =>
      cases err
      exact absurd hone (hok q (List.mem_cons_self _ _))
    | ok res =>
      cases res with
      | none => exact ih (TreeCache.get parse fs st q.path).2.1 hstable' hok'
      | some r =>
        have hrec := ih (TreeCache.get parse fs st q.path).2.1 hstable' hok'
        cases hpair : symbol_source parse fs (TreeCache.get parse fs st q.path).2.1 rest with
        | mk res' c' =>
          rw [hpair] at hrec
          simp only at hrec
          rw [hrec]

/-- C6: a `/symbol_source` batch in which no entry hits a malformed
definition node answers with exactly one `{start_line, start_col, text}`
entry per input that successfully resolved, in input order; inputs whose
resolution fails (no covering node, no enclosing definition, or name-hint
mismatch — the `.ok none` outcomes) are silently omitted, never null-padded
and never raised as an error. -/
theorem C6_batch_omission (parse : String → Node) (fs : String → Nat × String)
    (cache₀ : CacheMap) (qs : List SymbolLocation)
    (hok : ∀ q ∈ qs, symbolSourceOne (treeFor parse fs cache₀ q.path) q ≠
      .error .malformedNode) :
    (symbol_source parse fs cache₀ qs).1 = .ok (qs.filterMap fun q =>
      match symbolSourceOne (treeFor parse fs cache₀ q.path) q with
      | .ok r => r
      | .error _ => none) :=
  symbol_source_ok_of_stable parse fs cache₀ qs cache₀ (fun _ => rfl) hok

/-- The file system of the batch witnesses: every path has mtime 0 and its
own name as content. -/
def batchFs (p : String) : Nat × String := (0, p)

/-- The parser of the batch witnesses: "bad.py" parses to the tree with a
nameless definition node, everything else to the two-function file. -/
def batchParse (s : String) : Node :=
  if s = "bad.py" then malformedTree else twoFuncTree

/-- A query inside `alpha` of the two-function file. -/
def qAlpha : SymbolLocation := ⟨"", "good.py", 1, 0, 1, 5, false⟩

/-- A query past the end of the two-function file: a resolution miss. -/
def qMiss : SymbolLocation := ⟨"", "good.py", 8, 0, 8, 1, false⟩

/-- A query inside `beta` of the two-function file. -/
def qBeta : SymbolLocation := ⟨"", "good.py", 5, 0, 5, 5, false⟩

/-- A query landing on the nameless definition node of "bad.py". -/
def qBad : SymbolLocation := ⟨"", "bad.py", 1, 4, 1, 6, false⟩

/-- C6 witness: the batch [inside-alpha, past-the-end, inside-beta] answers
`[alpha's entry, beta's entry]` — the miss is omitted, order preserved. -/
theorem C6_batch_omission_witness :
    (symbol_source batchParse batchFs emptyCache [qAlpha, qMiss, qBeta]).1 =
      .ok ([qAlpha, qMiss, qBeta].filterMap fun q =>
        match symbolSourceOne (treeFor batchParse batchFs emptyCache q.path) q with
        | .ok r => r
        | .error _ => none) ∧
    ([qAlpha, qMiss, qBeta].filterMap fun q =>
        match symbolSourceOne (treeFor batchParse batchFs emptyCache q.path) q with
        | .ok r => r
        | .error _ => none) =
      [⟨0, 0, "def alpha():\n    x = 1\n    return x"⟩,
       ⟨4, 0, "def beta():\n    y = 2\n    return y"⟩] :=
  ⟨C6_batch_omission batchParse batchFs emptyCache [qAlpha, qMiss, qBeta]
    (by
      intro q hq
      rcases List.mem_cons.mp hq with rfl | hq'
      · intro h; cases h
      rcases List.mem_cons.mp hq' with rfl | hq''
      · intro h; cases h
      rcases List.mem_cons.mp hq'' with rfl | hq'''
      · intro h; cases h
      · cases hq'''),
   by rfl⟩

/-- The resolution loop of `get_funcs`, when no hit reaches a nameless
definition node: one `FunctionReference` per hit that resolves, computed
against the trees as served from the initial cache state, skipped hits
omitted. -/
theorem get_funcs_ok_of_stable (parse : String → Node) (fs : String → Nat × String)
    (func_name : String) (cache₀ : CacheMap) :
    ∀ (hits : List (String × Nat)) (st : CacheMap),
    (∀ p, treeFor parse fs st p = treeFor parse fs cache₀ p) →
    (∀ h ∈ hits, funcForHit fs func_name (treeFor parse fs cache₀ h.1) h.1 h.2 ≠
      .error .malformedNode) →
    (get_funcs parse fs func_name st hits).1 = .ok (hits.filterMap fun h =>
      match funcForHit fs func_name (treeFor parse fs cache₀ h.1) h.1 h.2 with
      | .ok r => r
      | .error _ => none) := by
  intro hits
  induction hits with
  | nil => intro st _ _; rfl
  | cons h rest ih =>
    intro st hstable hok
    obtain ⟨filepath, line⟩ := h
    have htree : (TreeCache.get parse fs st filepath).1 =
        treeFor parse fs cache₀ filepath := hstable filepath
    have hstable' : ∀ p,
        treeFor parse fs (TreeCache.get parse fs st filepath).2.1 p =
        treeFor parse fs cache₀ p := by
      intro p
      rw [treeFor_get_stable]
      exact hstable p
    have hok' : ∀ h' ∈ rest,
        funcForHit fs func_name (treeFor parse fs cache₀ h'.1) h'.1 h'.2 ≠
          .error .malformedNode :=
      fun h' hh' => hok h' (List.mem_cons_of_mem _ hh')
    simp only [get_funcs, htree, List.filterMap_cons]
    cases hone : funcForHit fs func_name (treeFor parse fs cache₀ filepath) filepath line with
    | error err =>
      cases err
      exact absurd hone (hok (filepath, line) (List.mem_cons_self _ _))
    | ok res =>
      cases res with
      | none => exact ih (TreeCache.get parse fs st filepath).2.1 hstable' hok'
      | some r =>
        have hrec := ih (TreeCache.get parse fs st filepath).2.1 hstable' hok'
        cases hpair : get_funcs parse fs func_name (TreeCache.get parse fs st filepath).2.1 rest with
        | mk res' c' =>
          rw [hpair] at hrec
          simp only at hrec
          rw [hrec]

/-- C9: for every `(file, line)` hit of the external search (none of which
reaches a nameless definition node), the hit is skipped when the anchored
point range has no enclosing function definition or when the searched name
is not a substring of the definition's name, and otherwise contributes one
`FunctionReference` (path, 0-based start line, full text, file mtime);
results follow the order of the hits and duplicates are not
deduplicated. -/
theorem C9_get_funcs_hits (parse : String → Node) (fs : String → Nat × String)
    (func_name : String) (cache₀ : CacheMap) (hits : List (String × Nat))
    (hok : ∀ h ∈ hits, funcForHit fs func_name (treeFor parse fs cache₀ h.1) h.1 h.2 ≠
      .error .malformedNode) :
    (get_funcs parse fs func_name cache₀ hits).1 = .ok (hits.filterMap fun h =>
      match funcForHit fs func_name (treeFor parse fs cache₀ h.1) h.1 h.2 with
      | .ok r => r
      | .error _ => none) :=
  get_funcs_ok_of_stable parse fs func_name cache₀ hits cache₀ (fun _ => rfl) hok

/-- C9 witness: searching "alpha" over hits on line 2 (inside `alpha`,
1-based), line 1 of a second, identical file (resolves to `alpha` again —
a duplicate, not deduplicated), and line 5 (inside `beta`, whose name does
not contain "alpha" — skipped, like a comment false positive) yields the
two `alpha` references in hit order. -/
theorem C9_get_funcs_hits_witness :
    (get_funcs batchParse batchFs "alpha" emptyCache
        [("good.py", 2), ("other.py", 1), ("good.py", 6)]).1 =
      .ok ([("good.py", 2), ("other.py", 1), ("good.py", 6)].filterMap fun h =>
        match funcForHit batchFs "alpha" (treeFor batchParse batchFs emptyCache h.1)
            h.1 h.2 with
        | .ok r => r
        | .error _ => none) ∧
    ([("good.py", 2), ("other.py", 1), ("good.py", 6)].filterMap fun h =>
        match funcForHit batchFs "alpha" (treeFor batchParse batchFs emptyCache h.1)
            h.1 h.2 with
        | .ok r => r
        | .error _ => none) =
      [⟨"good.py", 0, "def alpha():\n    x = 1\n    return x", 0⟩,
       ⟨"other.py", 0, "def alpha():\n    x = 1\n    return x", 0⟩] :=
  ⟨C9_get_funcs_hits batchParse batchFs "alpha" emptyCache
      [("good.py", 2), ("other.py", 1), ("good.py", 6)]
      (by
        intro h hh
        rcases List.mem_cons.mp hh with rfl | hh'
        · intro hcon; cases hcon
        rcases List.mem_cons.mp hh' with rfl | hh''
        · intro hcon; cases hcon
        rcases List.mem_cons.mp hh'' with rfl | hh'''
        · intro hcon; cases hcon
        · cases hh'''),
   by rfl⟩

/-- C5 counterexample: in the batch [query-hitting-the-nameless-definition,
query-inside-alpha], the nameless definition aborts the whole request with
the malformed-node error — the second entry does NOT still produce its
result, although it resolves fine on its own. -/
theorem C5_counterexample_batch_abort :
    (symbol_source batchParse batchFs emptyCache [qBad, qAlpha]).1 =
      .error .malformedNode ∧
    (symbol_source batchParse batchFs emptyCache [qAlpha]).1 =
      .ok [⟨0, 0, "def alpha():\n    x = 1\n    return x"⟩] := by
  exact ⟨by rfl, by rfl⟩

/-- C5 (amended): a resolved definition node missing its name child aborts
the entire batch `/symbol_source` request: if any entry of the batch hits
one, the whole request fails with the malformed-node error and no entry of
the batch produces a result. -/
theorem C5_amended_malformed_aborts_batch (parse : String → Node)
    (fs : String → Nat × String) (cache₀ : CacheMap) :
    ∀ qs : List SymbolLocation, ∀ st : CacheMap,
    (∀ p, treeFor parse fs st p = treeFor parse fs cache₀ p) →
    (∃ q ∈ qs, symbolSourceOne (treeFor parse fs cache₀ q.path) q =
      .error .malformedNode) →
    (symbol_source parse fs st qs).1 = .error .malformedNode := by
  intro qs
  induction qs with
  | nil =>
    intro st _ hex
    obtain ⟨q, hq, _⟩ := hex
    cases hq
  | cons q rest ih =>
    intro st hstable hex
    have htree : (TreeCache.get parse fs st q.path).1 =
        treeFor parse fs cache₀ q.path := hstable q.path
    have hstable' : ∀ p,
        treeFor parse fs (TreeCache.get parse fs st q.path).2.1 p =
        treeFor parse fs cache₀ p := by
      intro p
      rw [treeFor_get_stable]
      exact hstable p
    simp only [symbol_source, htree]
    cases hone : symbolSourceOne (treeFor parse fs cache₀ q.path) q with
    | error err => cases err; rfl
    | ok res =>
      have hex' : ∃ q' ∈ rest,
          symbolSourceOne (treeFor parse fs cache₀ q'.path) q' =
            .error .malformedNode := by
        obtain ⟨q', hq', herr⟩ := hex
        rcases List.mem_cons.mp hq' with rfl | hmem
        · rw [hone] at herr
          cases herr
        · exact ⟨q', hmem, herr⟩
      have hrec := ih (TreeCache.get parse fs st q.path).2.1 hstable' hex'
      cases res with
      | none => exact hrec
      | some r =>
        cases hpair : symbol_source parse fs (TreeCache.get parse fs st q.path).2.1 rest with
        | mk res' c' =>
          rw [hpair] at hrec
          simp only at hrec
          rw [hrec]

/-- C5 amended-claim witness: the concrete two-entry batch whose first
entry hits the nameless definition aborts with the malformed-node
error. -/
theorem C5_amended_malformed_aborts_batch_witness :
    (symbol_source batchParse batchFs emptyCache [qBad, qAlpha]).1 =
      .error .malformedNode :=
  C5_amended_malformed_aborts_batch batchParse batchFs emptyCache [qBad, qAlpha]
    emptyCache (fun _ => rfl)
    ⟨qBad, List.mem_cons_self _ _, by rfl⟩

end LineCompletion
